import Mathlib

/-!
Verification development for the `simple-blockchain` repository.

The Go source is shallowly embedded: byte strings become `List (Fin 256)`,
Go `int`/`int64` become `Int` (with explicit `% 2^64` where the binary
encoding matters), Go maps keyed by hex-encoded ids become association
lists keyed by `String`, and fatal `log.Panic` paths become `Except`
errors.  Functions of the Go standard library and of the repository's
transaction module (which is referenced by the sources but not part of
them) are modelled as fields of an `Ext` record of external collaborators,
or — where the spec pins down their behaviour — as executable definitions
marked `Modelled from the spec:`.
-/

set_option autoImplicit false

namespace SBC

/-- Byte strings (`[]byte` in Go). -/
abbrev Bytes := List (Fin 256)

/-- Build a byte from a natural number, reducing mod 256. -/
def byteOf (x : Nat) : Fin 256 := ⟨x % 256, Nat.mod_lt _ (by decide)⟩

/-- Lower-case hexadecimal digit for a value below 16,
as produced by Go's `encoding/hex`. -/
def hexDigitChar (n : Nat) : Char := Char.ofNat (if n < 10 then 48 + n else 87 + n)

/-- Go's `hex.EncodeToString`: two lower-case hex digits per byte, in order. -/
def hexEncode (bs : Bytes) : String :=
  String.mk ((bs.map (fun b => [hexDigitChar (b.val / 16), hexDigitChar (b.val % 16)])).flatten)

/-- Modelled from the spec: an output of the transaction module
(not under the provided sources): a value and a locking fingerprint
(§3: "An output holds a value (non-negative integer) and a locking
fingerprint (derived from a recipient's public key)"). -/
structure TXOutput where
  Value : Int
  PubKeyHash : Bytes
deriving DecidableEq

/-- Modelled from the spec: an input of the transaction module
(not under the provided sources): a reference to a prior transaction id
and output index, a signature and the spender's raw public key (§3). -/
structure TXInput where
  Txid : Bytes
  Vout : Int
  Signature : Bytes
  PubKey : Bytes
deriving DecidableEq

/-- Modelled from the spec: a transaction of the transaction module
(not under the provided sources): id, inputs, outputs (§3). -/
structure Transaction where
  ID : Bytes
  Vin : List TXInput
  Vout : List TXOutput
deriving DecidableEq

/-- Block as in `block.go`: timestamp, transactions, previous hash,
own hash, nonce.  Go `int64`/`int` are embedded as `Int`. -/
structure Block where
  Timestamp : Int
  Transactions : List Transaction
  PrevBlockHash : Bytes
  Hash : Bytes
  Nonce : Int
deriving DecidableEq

/-- External collaborators of the embedded core.  `sha256` is Go's
`crypto/sha256.Sum256`; `txSerialize` is the transaction module's
gob-based `Transaction.Serialize`; `blockSerialize`/`blockDeserialize`
are the gob encoding used by `Block.Serialize`/`DeserializeBlock`
(deserialization of a byte string that is not a valid encoding makes Go
panic, hence the `Option`); `txVerify` is the transaction module's
ECDSA-based `Transaction.Verify` given the map of referenced
transactions; `hashPubKey` is the wallet module's public-key fingerprint
digest.  None of these functions' bodies are part of the provided
sources, so they are kept abstract; every theorem below holds for all
instantiations. -/
structure Ext where
  sha256 : Bytes → Bytes
  txSerialize : Transaction → Bytes
  blockSerialize : Block → Bytes
  blockDeserialize : Bytes → Option Block
  txVerify : Transaction → List (String × Transaction) → Bool
  hashPubKey : Bytes → Bytes

/-- Modelled from the spec: `isCoinbase` of the transaction module
(§4.3: "true iff the transaction has exactly one input whose previous-id
is empty and index is −1"). -/
def IsCoinbase (tx : Transaction) : Bool :=
  match tx.Vin with
  | [v] => v.Txid == [] && v.Vout == -1
  | _ => false

/-- Modelled from the spec: `isLockedWithKey` of the transaction module
(§4.3: "byte-equality checks between a key fingerprint and ... the
output's locking fingerprint"). -/
def IsLockedWithKey (out : TXOutput) (pubKeyHash : Bytes) : Bool :=
  out.PubKeyHash == pubKeyHash

/-- Modelled from the spec: `usesKey` of the transaction module
(§4.3: "byte-equality checks between a key fingerprint and ... the
input's embedded public key's fingerprint"). -/
def UsesKey (E : Ext) (inp : TXInput) (pubKeyHash : Bytes) : Bool :=
  E.hashPubKey inp.PubKey == pubKeyHash

/-- `IntToHex` from `block.go`: 8-byte big-endian two's-complement
encoding of an `int64` (`binary.Write` with `binary.BigEndian`). -/
def IntToHex (num : Int) : Bytes :=
  (List.range 8).map (fun i => byteOf ((num % (2 ^ 64 : Int)).toNat / 256 ^ (7 - i)))

/-- `bytes.Join` with an empty separator: concatenation. -/
def bytesJoin (l : List Bytes) : Bytes := l.foldl (fun acc b => acc ++ b) []

/-- `Block.HashTransactions` from `block.go`: SHA-256 of the
concatenation of each transaction's serialized bytes, in list order. -/
def HashTransactions (E : Ext) (b : Block) : Bytes :=
  E.sha256 (bytesJoin (b.Transactions.foldl (fun acc tx => acc ++ [E.txSerialize tx]) []))

/-- `Block.PrepareData` from `block.go`: concatenation of the previous
block hash, the transactions digest, the encoded timestamp and the
encoded nonce. -/
def PrepareData (E : Ext) (b : Block) : Bytes :=
  bytesJoin [b.PrevBlockHash, HashTransactions E b, IntToHex b.Timestamp, IntToHex b.Nonce]

/-- `Block.CalculateHash` from `block.go`: SHA-256 of `PrepareData`. -/
def CalculateHash (E : Ext) (b : Block) : Bytes :=
  E.sha256 (PrepareData E b)

/-- `targetBits` from `proofofwork.go`. -/
def targetBits : Nat := 16

/-- `maxNonce` from `proofofwork.go`: `math.MaxInt64`. -/
def maxNonce : Nat := 2 ^ 63 - 1

/-- The proof-of-work target built by `NewProofOfWork`:
`1 << (256 - targetBits)`. -/
def powTarget : Nat := 2 ^ (256 - targetBits)

/-- Reading a byte string as an unsigned big-endian integer
(`big.Int.SetBytes`). -/
def hashToNat (bs : Bytes) : Nat := bs.foldl (fun acc b => acc * 256 + b.val) 0

/-- `ProofOfWork.prepareData` from `proofofwork.go`: store the candidate
nonce into the block and serialize its header data. -/
def PowPrepareData (E : Ext) (b : Block) (nonce : Int) : Bytes :=
  PrepareData E { b with Nonce := nonce }

/-- One mining trial of `ProofOfWork.Run`: is the digest at this nonce
strictly below the target? -/
def PowSolves (E : Ext) (b : Block) (nonce : Nat) : Bool :=
  hashToNat (E.sha256 (PowPrepareData E b (nonce : Int))) < powTarget

/-- The mining loop of `ProofOfWork.Run` from `proofofwork.go`.  The Go
loop runs while `nonce < maxNonce`; `fuel` is the number of remaining
iterations (`maxNonce - nonce`) and `lastHash` the value of the `hash`
variable from the previous iteration (initially the zero array). -/
def RunAux (E : Ext) (b : Block) : Nat → Nat → Bytes → Nat × Bytes
  | nonce, 0, lastHash => (nonce, lastHash)
  | nonce, fuel + 1, _ =>
    let hash := E.sha256 (PowPrepareData E b (nonce : Int))
    if hashToNat hash < powTarget then (nonce, hash)
    else RunAux E b (nonce + 1) fuel hash

/-- `ProofOfWork.Run` from `proofofwork.go`: search nonces from 0 up;
on success return the solving nonce and its digest, on exhaustion of the
nonce space fall out of the loop and return `maxNonce` together with the
digest computed at the last tried nonce. -/
def Run (E : Ext) (b : Block) : Nat × Bytes :=
  RunAux E b 0 maxNonce (List.replicate 32 (byteOf 0))

/-- `ProofOfWork.Validate` from `proofofwork.go`: recompute the digest
at the block's own recorded nonce and compare it against the target. -/
def Validate (E : Ext) (b : Block) : Bool :=
  hashToNat (E.sha256 (PowPrepareData E b b.Nonce)) < powTarget

/-- `NewBlock` from `block.go`: build a block with empty hash and zero
nonce, run proof of work, and store the resulting hash and nonce.
`now` stands for `time.Now().Unix()`. -/
def NewBlock (E : Ext) (now : Int) (transactions : List Transaction) (prevBlockHash : Bytes) :
    Block :=
  let block : Block := ⟨now, transactions, prevBlockHash, [], 0⟩
  let r := Run E block
  { block with Hash := r.2, Nonce := (r.1 : Int) }

/-- Go maps `map[string][]int` keyed by hex-encoded transaction ids,
embedded as association lists. -/
abbrev AssocMap := List (String × List Int)

/-- Read a key of an `AssocMap` (a missing key reads as the empty
slice, as a `nil` Go slice does). -/
def marks : AssocMap → String → List Int
  | [], _ => []
  | (k', l) :: rest, k => if k' = k then l else marks rest k

/-- Replace (or create) the entry of key `k` with `l`. -/
def assocSetList (m : AssocMap) (k : String) (l : List Int) : AssocMap :=
  match m with
  | [] => [(k, l)]
  | (k', l') :: rest => if k' = k then (k, l) :: rest else (k', l') :: assocSetList rest k l

/-- The Go idiom `m[k] = append(m[k], v)`. -/
def assocPush (m : AssocMap) (k : String) (v : Int) : AssocMap :=
  assocSetList m k (marks m k ++ [v])

/-- The output loop of `FindUnspentTransactions` for one transaction:
walk the outputs with their indices (`idx` is the index of the first
output of `outs` within the transaction); an output whose index was
already recorded as spent is skipped (`continue Outputs`), and for every
remaining output locked to the key the whole transaction is appended. -/
def scanOutputsAux (spentIdx : List Int) (pubKeyHash : Bytes) (tx : Transaction) :
    List TXOutput → Nat → List Transaction
  | [], _ => []
  | out :: rest, idx =>
    (if spentIdx.contains (idx : Int) then []
     else if IsLockedWithKey out pubKeyHash then [tx] else []) ++
    scanOutputsAux spentIdx pubKeyHash tx rest (idx + 1)

/-- The input loop of `FindUnspentTransactions` for one transaction:
for a non-coinbase transaction, record each input that uses the key
into the spent map under the hex-encoded referenced id. -/
def scanInputs (E : Ext) (pubKeyHash : Bytes) (spent : AssocMap) (tx : Transaction) : AssocMap :=
  if IsCoinbase tx then spent
  else tx.Vin.foldl
    (fun m inp => if UsesKey E inp pubKeyHash then assocPush m (hexEncode inp.Txid) inp.Vout else m)
    spent

/-- Scan state of `FindUnspentTransactions`: the accumulated result
slice and the spent-output map. -/
structure ScanState where
  unspentTXs : List Transaction
  spentTXOs : AssocMap
deriving DecidableEq

/-- Processing of one transaction inside `FindUnspentTransactions`:
outputs first (against the spent map accumulated so far), then inputs. -/
def scanTx (E : Ext) (pubKeyHash : Bytes) (st : ScanState) (tx : Transaction) : ScanState :=
  { unspentTXs :=
      st.unspentTXs ++ scanOutputsAux (marks st.spentTXOs (hexEncode tx.ID)) pubKeyHash tx tx.Vout 0
    spentTXOs := scanInputs E pubKeyHash st.spentTXOs tx }

/-- `Blockchain.FindUnspentTransactions` from `blockchain.go`.  `chain`
is the sequence of blocks the iterator yields, tip to genesis (the Go
loop calls `bci.Next()` until it reaches the block with an empty
previous hash); each block's transactions are processed in list order. -/
def FindUnspentTransactions (E : Ext) (chain : List Block) (pubKeyHash : Bytes) :
    List Transaction :=
  (chain.foldl (fun (st : ScanState) b => b.Transactions.foldl (scanTx E pubKeyHash) st)
    ⟨[], []⟩).unspentTXs

/-- All transactions of the chain, tip to genesis, in scan order. -/
def chainTxs (chain : List Block) : List Transaction :=
  (chain.map (fun b => b.Transactions)).flatten

/-- `Blockchain.FindUTXO` from `blockchain.go`: collect, from every
transaction returned by the unspent scan, every output locked to the
key. -/
def FindUTXO (E : Ext) (chain : List Block) (pubKeyHash : Bytes) : List TXOutput :=
  (FindUnspentTransactions E chain pubKeyHash).foldl
    (fun acc tx => acc ++ tx.Vout.filter (fun out => IsLockedWithKey out pubKeyHash)) []

/-- The inner output loop of `FindSpendableOutputs` for one transaction:
`idx` numbers the outputs; a locked output is taken while the
accumulated value is still below `amount`; as soon as the accumulated
value reaches `amount` the labelled loop breaks (third component
`true`). -/
def spendOutputsAux (pubKeyHash : Bytes) (amount : Int) (txID : String) :
    List TXOutput → Nat → Int → AssocMap → Int × AssocMap × Bool
  | [], _, acc, m => (acc, m, false)
  | out :: rest, idx, acc, m =>
    if IsLockedWithKey out pubKeyHash && decide (acc < amount) then
      let acc' := acc + out.Value
      let m' := assocPush m txID (idx : Int)
      if amount ≤ acc' then (acc', m', true)
      else spendOutputsAux pubKeyHash amount txID rest (idx + 1) acc' m'
    else spendOutputsAux pubKeyHash amount txID rest (idx + 1) acc m

/-- The labelled `Work` loop of `FindSpendableOutputs` over the
transactions returned by the unspent scan. -/
def spendWork (pubKeyHash : Bytes) (amount : Int) :
    List Transaction → Int → AssocMap → Int × AssocMap
  | [], acc, m => (acc, m)
  | tx :: rest, acc, m =>
    match spendOutputsAux pubKeyHash amount (hexEncode tx.ID) tx.Vout 0 acc m with
    | (acc', m', true) => (acc', m')
    | (acc', m', false) => spendWork pubKeyHash amount rest acc' m'

/-- `Blockchain.FindSpendableOutputs` from `blockchain.go`. -/
def FindSpendableOutputs (E : Ext) (chain : List Block) (pubKeyHash : Bytes) (amount : Int) :
    Int × AssocMap :=
  spendWork pubKeyHash amount (FindUnspentTransactions E chain pubKeyHash) 0 []

/-- The persistent key-value store of one bucket (`bbolt`), as an
opaque byte-string map: absent keys read as `nil`. -/
def Store := Bytes → Option Bytes

/-- Write one key (`bucket.Put`). -/
def storePut (s : Store) (k v : Bytes) : Store :=
  fun k' => if k' = k then some v else s k'

/-- The reserved key `"l"` holding the tip hash. -/
def lKey : Bytes := [byteOf 108]

/-- The persistent state a `Blockchain` value owns: the blocks bucket,
the in-memory tip hash, and the mempool bucket. -/
structure ChainState where
  store : Store
  tip : Bytes
  mempool : Store

/-- One step of `BlockchainIterator.Next`: read the block stored at the
current hash and step to its previous hash.  `none` models the
`log.Panic` on a missing or malformed record. -/
def nextIter (E : Ext) (store : Store) (cur : Bytes) : Option (Block × Bytes) :=
  match store cur with
  | none => none
  | some data =>
    match E.blockDeserialize data with
    | none => none
    | some b => some (b, b.PrevBlockHash)

/-- `Blockchain.FindTransaction` from `blockchain.go`: scan blocks tip
to genesis for a transaction with the given id; `fuel` bounds the
unbounded Go loop (exhaustion is an error, as a diverging run never
returns). -/
def FindTransaction (E : Ext) (store : Store) : Bytes → Bytes → Nat → Except String Transaction
  | _, _, 0 => .error "fuel exhausted"
  | cur, id, fuel + 1 =>
    match nextIter E store cur with
    | none => .error "panic: malformed block record"
    | some (b, nxt) =>
      match b.Transactions.find? (fun tx => tx.ID == id) with
      | some tx => .ok tx
      | none =>
        if b.PrevBlockHash == [] then .error "Transaction is not found"
        else FindTransaction E store nxt id fuel

/-- Replace (or create) an entry of the referenced-transactions map
(the Go assignment `prevTXs[hex(prevTX.ID)] = prevTX`). -/
def assocSetTx (m : List (String × Transaction)) (k : String) (tx : Transaction) :
    List (String × Transaction) :=
  match m with
  | [] => [(k, tx)]
  | (k', tx') :: rest => if k' = k then (k, tx) :: rest else (k', tx') :: assocSetTx rest k tx

/-- The referenced-transactions collection loop of
`Blockchain.VerifyTransaction`: look up every input's previous
transaction (a lookup failure is the `log.Panic` path). -/
def collectPrevTXs (E : Ext) (store : Store) (tip : Bytes) (fuel : Nat) :
    List TXInput → List (String × Transaction) → Except String (List (String × Transaction))
  | [], m => .ok m
  | vin :: rest, m =>
    match FindTransaction E store tip vin.Txid fuel with
    | .error e => .error e
    | .ok prev => collectPrevTXs E store tip fuel rest (assocSetTx m (hexEncode prev.ID) prev)

/-- `Blockchain.VerifyTransaction` from `blockchain.go`: coinbase
transactions return `true` immediately; otherwise the referenced
transactions are collected from the chain and handed to the transaction
module's `Verify`. -/
def VerifyTransaction (E : Ext) (st : ChainState) (tx : Transaction) (fuel : Nat) :
    Except String Bool :=
  if IsCoinbase tx then .ok true
  else
    match collectPrevTXs E st.store st.tip fuel tx.Vin [] with
    | .error e => .error e
    | .ok prevTXs => .ok (E.txVerify tx prevTXs)

/-- The verification loop at the top of `Blockchain.MineBlock`:
`log.Panic("ERROR: Invalid transaction")` on the first transaction that
does not verify. -/
def verifyAll (E : Ext) (st : ChainState) (fuel : Nat) :
    List Transaction → Except String Unit
  | [] => .ok ()
  | tx :: rest =>
    match VerifyTransaction E st tx fuel with
    | .error e => .error e
    | .ok true => verifyAll E st fuel rest
    | .ok false => .error "ERROR: Invalid transaction"

/-- `Blockchain.MineBlock` from `blockchain.go`: verify every candidate
transaction (aborting on the first failure, before anything is read or
written), read the tip hash, mine a new block on top of it, then store
the block, move the `"l"` pointer and advance the in-memory tip.  An
`.error` result models `log.Panic`, which aborts before any write. -/
def MineBlock (E : Ext) (now : Int) (st : ChainState) (transactions : List Transaction)
    (fuel : Nat) : Except String (ChainState × Block) :=
  match verifyAll E st fuel transactions with
  | .error e => .error e
  | .ok () =>
    let lastHash := (st.store lKey).getD []
    let newBlock := NewBlock E now transactions lastHash
    let store1 := storePut st.store newBlock.Hash (E.blockSerialize newBlock)
    let store2 := storePut store1 lKey newBlock.Hash
    .ok ({ store := store2, tip := newBlock.Hash, mempool := st.mempool }, newBlock)

/-- `Blockchain.AddBlock` from `blockchain.go`: a no-op if a block with
that hash is already stored; otherwise write the block, read back and
decode the current last block (whose decoded value is then discarded —
decoding failure still panics), point `"l"` at the new block and advance
the in-memory tip unconditionally. -/
def AddBlock (E : Ext) (st : ChainState) (block : Block) : Except String ChainState :=
  match st.store block.Hash with
  | some _ => .ok st
  | none =>
    let store1 := storePut st.store block.Hash (E.blockSerialize block)
    let lastHash := (store1 lKey).getD []
    let lastBlockData := (store1 lastHash).getD []
    match E.blockDeserialize lastBlockData with
    | none => .error "panic: malformed last block"
    | some _ =>
      let store2 := storePut store1 lKey block.Hash
      .ok { store := store2, tip := block.Hash, mempool := st.mempool }

/-- The counting loop of `Blockchain.GetBestHeight`: step the iterator,
increment the height, stop after the block with an empty previous hash.
`fuel` bounds the unbounded Go loop. -/
def heightAux (E : Ext) (store : Store) : Bytes → Nat → Nat → Option Nat
  | _, _, 0 => none
  | cur, acc, fuel + 1 =>
    match nextIter E store cur with
    | none => none
    | some (b, nxt) =>
      if b.PrevBlockHash = [] then some (acc + 1) else heightAux E store nxt (acc + 1) fuel

/-- `Blockchain.GetBestHeight` from `blockchain.go`. -/
def GetBestHeight (E : Ext) (st : ChainState) (fuel : Nat) : Option Nat :=
  heightAux E st.store st.tip 0 fuel

/-- A list of blocks is the faithful store representation of the chain
hanging from a hash: each block is stored (and decodable) under that
hash, the last one is the genesis block (empty previous hash) and every
other one links to the rest. -/
def ChainRep (E : Ext) (store : Store) : Bytes → List Block → Prop
  | _, [] => False
  | h, b :: rest =>
    store h = some (E.blockSerialize b) ∧
    E.blockDeserialize (E.blockSerialize b) = some b ∧
    (match rest with
     | [] => b.PrevBlockHash = []
     | _ :: _ => b.PrevBlockHash ≠ [] ∧ ChainRep E store b.PrevBlockHash rest)

/-- No input anywhere in the chain references the output `(id, i)`
(the spent-once side condition the spec quantifies over). -/
def IsUnreferenced (chain : List Block) (id : Bytes) (i : Int) : Bool :=
  (chainTxs chain).all (fun t => t.Vin.all (fun inp => !(inp.Txid == id && inp.Vout == i)))

/-- Sum of the values of a transaction's outputs that are locked to the
key and referenced by no input of the chain (`idx` numbers the outputs). -/
def ulsAux (chain : List Block) (pubKeyHash : Bytes) (id : Bytes) : List TXOutput → Nat → Int
  | [], _ => 0
  | out :: rest, idx =>
    (if IsLockedWithKey out pubKeyHash && IsUnreferenced chain id (idx : Int) then out.Value
     else 0) +
    ulsAux chain pubKeyHash id rest (idx + 1)

/-- The total unspent value locked to a fingerprint: the sum, over all
outputs of the chain locked to it and referenced by no input, of their
values. -/
def totalUnspent (chain : List Block) (pubKeyHash : Bytes) : Int :=
  ((chainTxs chain).map (fun t => ulsAux chain pubKeyHash t.ID t.Vout 0)).sum

/-- Value of the output `(k, i)` named by an entry of a spendable-output
map: `k` is a hex-encoded transaction id, `i` an output index. -/
def outputValueAt (chain : List Block) (k : String) (i : Int) : Int :=
  match (chainTxs chain).find? (fun t => hexEncode t.ID == k) with
  | some t =>
    if i < 0 then 0
    else
      match t.Vout[i.toNat]? with
      | some o => o.Value
      | none => 0
  | none => 0

/-- Sum of the values of the outputs listed in a spendable-output map,
counted with multiplicity (an index listed twice counts twice). -/
def listedSumMult (chain : List Block) (m : AssocMap) : Int :=
  (m.map (fun e => (e.2.map (fun i => outputValueAt chain e.1 i)).sum)).sum

/-- Sum of the values of the distinct outputs listed in a
spendable-output map, as the claim words it (each (txid, index) pair
counted once). -/
def claimDistinctListedSum (chain : List Block) (m : AssocMap) : Int :=
  (m.map (fun e => (e.2.dedup.map (fun i => outputValueAt chain e.1 i)).sum)).sum

/-- Sum of the values of the outputs of a list locked to the key. -/
def lockedSumOuts (pubKeyHash : Bytes) (outs : List TXOutput) : Int :=
  ((outs.filter (fun o => IsLockedWithKey o pubKeyHash)).map (fun o => o.Value)).sum

/-- The deserialization-success condition `AddBlock` needs on its
panic-free path: after the new block is written, the record the `"l"`
pointer designates decodes. -/
def addBlockDecodeOk (E : Ext) (st : ChainState) (b : Block) : Bool :=
  (E.blockDeserialize
    ((storePut st.store b.Hash (E.blockSerialize b)
        ((storePut st.store b.Hash (E.blockSerialize b) lKey).getD [])).getD [])).isSome

/-- A trivial instantiation of the external collaborators: every digest
is the single zero byte, serialization is empty, fingerprints are the
raw key bytes. -/
def extZero : Ext where
  sha256 := fun _ => [byteOf 0]
  txSerialize := fun _ => []
  blockSerialize := fun _ => []
  blockDeserialize := fun _ => none
  txVerify := fun _ _ => true
  hashPubKey := fun b => b

/-- An instantiation whose digest function is constantly the all-ones
32-byte string, so that no nonce ever meets the target. -/
def extFF : Ext :=
  { extZero with sha256 := fun _ => List.replicate 32 (byteOf 255) }

/-- A block with no transactions, used as a concrete mining input. -/
def blk0 : Block := ⟨0, [], [], [], 0⟩

/-- The fingerprint used by the concrete chains below. -/
def pk9 : Bytes := [byteOf 9]

/-- A coinbase-shaped input with junk in the signature position. -/
def cbInput : TXInput := ⟨[], -1, [byteOf 42], [byteOf 7]⟩

/-- Coinbase transaction with two outputs locked to `pk9`, of values 5
and 7. -/
def txA : Transaction := ⟨[byteOf 1], [cbInput], [⟨5, pk9⟩, ⟨7, pk9⟩]⟩

/-- Transaction spending output 0 of `txA`, paying a different key. -/
def txX : Transaction := ⟨[byteOf 3], [⟨[byteOf 1], 0, [], pk9⟩], [⟨5, [byteOf 8]⟩]⟩

/-- Genesis block holding `txA`. -/
def blkA : Block := ⟨0, [txA], [], [byteOf 2], 0⟩

/-- Successor block holding `txX`. -/
def blkX : Block := ⟨0, [txX], [byteOf 2], [byteOf 4], 0⟩

/-- Two-block chain, tip to genesis, in which output `(txA, 0)` is
spent by `txX` while output `(txA, 1)` is unspent. -/
def chainAX : List Block := [blkX, blkA]

/-- Coinbase transaction with two unspent outputs of value 5 locked to
`pk9`. -/
def tx7 : Transaction := ⟨[byteOf 1], [cbInput], [⟨5, pk9⟩, ⟨5, pk9⟩]⟩

/-- One-block chain holding `tx7`. -/
def blk7 : Block := ⟨0, [tx7], [], [byteOf 2], 0⟩

/-- Chain on which the spendable-output selection double-counts. -/
def chain7 : List Block := [blk7]

/-- Coinbase transaction funding the concrete store-backed chain. -/
def txPrev : Transaction := ⟨[byteOf 2], [cbInput], [⟨10, pk9⟩]⟩

/-- Genesis block of the concrete store-backed chain. -/
def blkPrev : Block := ⟨0, [txPrev], [], [byteOf 1], 0⟩

/-- External collaborators for the store-backed fixtures: every block
record serializes to `[0]` and decodes back to `blkPrev`; every
signature check fails. -/
def extStore : Ext :=
  { extZero with
    txVerify := fun _ _ => false
    blockSerialize := fun _ => [byteOf 0]
    blockDeserialize := fun _ => some blkPrev }

/-- A store holding the genesis block `blkPrev` under hash `[1]`, with
the `"l"` pointer at it. -/
def stPrev : ChainState :=
  ⟨fun k => if k = lKey then some [byteOf 1] else if k = [byteOf 1] then some [byteOf 0] else none,
   [byteOf 1], fun _ => none⟩

/-- A non-coinbase transaction spending `(txPrev, 0)`; under `extStore`
its signature check fails. -/
def txBad : Transaction := ⟨[byteOf 5], [⟨[byteOf 2], 0, [], pk9⟩], [⟨10, [byteOf 8]⟩]⟩

/-- A block not yet present in `stPrev`, for the ingestion fixture. -/
def blkNew : Block := ⟨1, [], [byteOf 1], [byteOf 2], 0⟩

/-- An empty chain state. -/
def stEmpty : ChainState := ⟨fun _ => none, [], fun _ => none⟩

/-- A coinbase transaction with junk in the signature position. -/
def cbTx : Transaction := ⟨[byteOf 6], [cbInput], [⟨10, pk9⟩]⟩

theorem foldl_append_singleton (E : Ext) :
    ∀ (l : List Transaction) (acc : List Bytes),
      l.foldl (fun a tx => a ++ [E.txSerialize tx]) acc = acc ++ l.map E.txSerialize := by
  intro l
  induction l with
  | nil => intro acc; simp
  | cons t ts ih => intro acc; simp [ih]

theorem bytesJoin_eq_flatten' :
    ∀ (l : List Bytes) (acc : Bytes), l.foldl (fun a b => a ++ b) acc = acc ++ l.flatten := by
  intro l
  induction l with
  | nil => intro acc; simp
  | cons x xs ih => intro acc; simp [ih]

theorem bytesJoin_eq_flatten (l : List Bytes) : bytesJoin l = l.flatten := by
  simpa using bytesJoin_eq_flatten' l []

/-- C3: the block digest is SHA-256 of the previous hash, followed by
SHA-256 of the concatenation of the transactions' serialized bytes in
list order, followed by the 8-byte big-endian timestamp and the 8-byte
big-endian nonce; for an empty transaction list the transaction-set
digest is SHA-256 of the empty byte string. -/
theorem block_digest_structure (E : Ext) (b : Block) :
    CalculateHash E b =
      E.sha256 (b.PrevBlockHash ++
        E.sha256 ((b.Transactions.map E.txSerialize).flatten) ++
        IntToHex b.Timestamp ++ IntToHex b.Nonce) ∧
    HashTransactions E { b with Transactions := [] } = E.sha256 [] := by
  constructor
  · simp [CalculateHash, PrepareData, HashTransactions, bytesJoin_eq_flatten,
      foldl_append_singleton]
  · simp [HashTransactions, bytesJoin]

/-- C8: a coinbase transaction passes `VerifyTransaction` immediately,
for every chain state, every fuel and every instantiation of the
external collaborators (in particular regardless of the signature
position's content and without looking up any referenced transaction). -/
theorem coinbase_verifies (E : Ext) (st : ChainState) (tx : Transaction) (fuel : Nat)
    (h : IsCoinbase tx = true) :
    VerifyTransaction E st tx fuel = .ok true := by
  simp [VerifyTransaction, h]

theorem coinbase_verifies_witness :
    IsCoinbase cbTx = true ∧ VerifyTransaction extZero stEmpty cbTx 0 = .ok true :=
  ⟨by decide, coinbase_verifies extZero stEmpty cbTx 0 (by decide)⟩

theorem spendOutputsAux_noop (pubKeyHash : Bytes) (amount : Int) (k : String) :
    ∀ (outs : List TXOutput) (idx : Nat) (acc : Int) (m : AssocMap), ¬ acc < amount →
      spendOutputsAux pubKeyHash amount k outs idx acc m = (acc, m, false) := by
  intro outs
  induction outs with
  | nil => intro idx acc m _; rfl
  | cons o rest ih =>
    intro idx acc m h
    have hc : (IsLockedWithKey o pubKeyHash && decide (acc < amount)) = false := by
      simp [h]
    simp [spendOutputsAux, hc, ih _ _ _ h]

theorem spendWork_noop (pubKeyHash : Bytes) (amount : Int) :
    ∀ (txs : List Transaction) (acc : Int) (m : AssocMap), amount ≤ acc →
      spendWork pubKeyHash amount txs acc m = (acc, m) := by
  intro txs
  induction txs with
  | nil => intro acc m _; rfl
  | cons t rest ih =>
    intro acc m h
    simp [spendWork, spendOutputsAux_noop pubKeyHash amount _ t.Vout 0 acc m (not_lt.mpr h),
      ih acc m h]

/-- C10: for a non-positive requested amount, `FindSpendableOutputs`
accumulates nothing and returns an empty output map, on every chain. -/
theorem spendable_nonpositive_amount (E : Ext) (chain : List Block) (pubKeyHash : Bytes)
    (amount : Int) (h : amount ≤ 0) :
    FindSpendableOutputs E chain pubKeyHash amount = (0, []) := by
  unfold FindSpendableOutputs
  exact spendWork_noop pubKeyHash amount _ 0 [] h

theorem spendable_nonpositive_amount_witness :
    (0 : Int) ≤ 0 ∧ FindSpendableOutputs extZero chain7 pk9 0 = (0, []) :=
  ⟨le_refl 0, spendable_nonpositive_amount extZero chain7 pk9 0 (le_refl 0)⟩

theorem verifyAll_error (E : Ext) (st : ChainState) (fuel : Nat) :
    ∀ l : List Transaction, (∃ tx ∈ l, VerifyTransaction E st tx fuel = .ok false) →
      ∃ e, verifyAll E st fuel l = .error e := by
  intro l
  induction l with
  | nil => rintro ⟨tx, h, -⟩; cases h
  | cons t rest ih =>
    rintro ⟨tx, htx, hv⟩
    cases hvt : VerifyTransaction E st t fuel with
    | error e => exact ⟨e, by simp [verifyAll, hvt]⟩
    | ok bv =>
      cases bv with
      | false => exact ⟨"ERROR: Invalid transaction", by simp [verifyAll, hvt]⟩
      | true =>
        rcases List.mem_cons.mp htx with rfl | hmem
        · rw [hvt] at hv; cases hv
        · obtain ⟨e, he⟩ := ih ⟨tx, hmem, hv⟩
          exact ⟨e, by simp [verifyAll, hvt, he]⟩

/-- C4: if any candidate transaction fails verification, `MineBlock`
takes the fatal panic path; since the verification loop precedes every
store read and write in the source, nothing is written, the tip is not
advanced and the mempool is untouched (the error result carries no
successor state). -/
theorem mineBlock_aborts_on_invalid (E : Ext) (now : Int) (st : ChainState)
    (transactions : List Transaction) (fuel : Nat)
    (h : ∃ tx ∈ transactions, VerifyTransaction E st tx fuel = .ok false) :
    ∃ e, MineBlock E now st transactions fuel = .error e := by
  obtain ⟨e, he⟩ := verifyAll_error E st fuel transactions h
  exact ⟨e, by simp [MineBlock, he]⟩

theorem mineBlock_aborts_on_invalid_witness :
    VerifyTransaction extStore stPrev txBad 1 = .ok false ∧
      ∃ e, MineBlock extStore 0 stPrev [txBad] 1 = .error e := by
  have hv : VerifyTransaction extStore stPrev txBad 1 = .ok false := by rfl
  exact ⟨hv,
    mineBlock_aborts_on_invalid extStore 0 stPrev [txBad] 1 ⟨txBad, by simp, hv⟩⟩

theorem RunAux_success (E : Ext) (b : Block) :
    ∀ (fuel nonce : Nat) (lh : Bytes),
      (RunAux E b nonce fuel lh).1 < nonce + fuel →
      PowSolves E b (RunAux E b nonce fuel lh).1 = true ∧
      (RunAux E b nonce fuel lh).2 =
        E.sha256 (PowPrepareData E b ((RunAux E b nonce fuel lh).1 : Int)) := by
  intro fuel
  induction fuel with
  | zero => intro nonce lh h; simp [RunAux] at h
  | succ f ih =>
    intro nonce lh h
    by_cases hs : hashToNat (E.sha256 (PowPrepareData E b (nonce : Int))) < powTarget
    · simp [RunAux, hs, PowSolves]
    · have hr : RunAux E b nonce (f + 1) lh =
          RunAux E b (nonce + 1) f (E.sha256 (PowPrepareData E b (nonce : Int))) := by
        simp [RunAux, hs]
      rw [hr] at h ⊢
      exact ih (nonce + 1) _ (by omega)

theorem RunAux_min (E : Ext) (b : Block) :
    ∀ (fuel nonce : Nat) (lh : Bytes),
      (∀ m, m < nonce → PowSolves E b m = false) →
      ∀ m, m < (RunAux E b nonce fuel lh).1 → PowSolves E b m = false := by
  intro fuel
  induction fuel with
  | zero =>
    intro nonce lh hpre m hm
    exact hpre m (by simpa [RunAux] using hm)
  | succ f ih =>
    intro nonce lh hpre m hm
    by_cases hs : hashToNat (E.sha256 (PowPrepareData E b (nonce : Int))) < powTarget
    · rw [show RunAux E b nonce (f + 1) lh =
          (nonce, E.sha256 (PowPrepareData E b (nonce : Int))) from by simp [RunAux, hs]] at hm
      exact hpre m hm
    · rw [show RunAux E b nonce (f + 1) lh =
          RunAux E b (nonce + 1) f (E.sha256 (PowPrepareData E b (nonce : Int))) from by
        simp [RunAux, hs]] at hm
      refine ih (nonce + 1) _ ?_ m hm
      intro k hk
      rcases Nat.lt_succ_iff_lt_or_eq.mp hk with h' | rfl
      · exact hpre k h'
      · simp [PowSolves, hs]

theorem RunAux_exhaust (E : Ext) (b : Block) :
    ∀ (fuel nonce : Nat) (lh : Bytes), 1 ≤ fuel →
      (∀ m, m < nonce + fuel → PowSolves E b m = false) →
      RunAux E b nonce fuel lh =
        (nonce + fuel, E.sha256 (PowPrepareData E b ((nonce + fuel - 1 : Nat) : Int))) := by
  intro fuel
  induction fuel with
  | zero => intro nonce lh h; cases h
  | succ f ih =>
    intro nonce lh _ hall
    have hs : PowSolves E b nonce = false := hall nonce (by omega)
    have hs' : ¬ hashToNat (E.sha256 (PowPrepareData E b (nonce : Int))) < powTarget := by
      simpa [PowSolves] using hs
    cases f with
    | zero => simp [RunAux, hs']
    | succ f' =>
      rw [show RunAux E b nonce (f' + 1 + 1) lh =
          RunAux E b (nonce + 1) (f' + 1) (E.sha256 (PowPrepareData E b (nonce : Int))) from by
        simp [RunAux, hs']]
      rw [ih (nonce + 1) _ (by omega) (by intro m hm; exact hall m (by omega))]
      have h1 : nonce + 1 + (f' + 1) = nonce + (f' + 1 + 1) := by omega
      rw [h1]

/-- C2: whenever the mining loop exits through its success branch (the
returned nonce is below `maxNonce`, which holds exactly when a solution
was found), validating the block carrying the returned nonce and hash
succeeds, and the returned hash is the SHA-256 digest of the canonical
block data recomputed at that nonce. -/
theorem run_validate_roundtrip (E : Ext) (b : Block) (h : (Run E b).1 < maxNonce) :
    Validate E { b with Nonce := ((Run E b).1 : Int), Hash := (Run E b).2 } = true ∧
    (Run E b).2 = E.sha256 (PowPrepareData E b ((Run E b).1 : Int)) := by
  have hs := RunAux_success E b maxNonce 0 (List.replicate 32 (byteOf 0)) (by simpa [Run] using h)
  refine ⟨?_, hs.2⟩
  have hval : Validate E { b with Nonce := ((Run E b).1 : Int), Hash := (Run E b).2 } =
      PowSolves E b (Run E b).1 := by
    simp [Validate, PowSolves, PowPrepareData, PrepareData, HashTransactions]
  rw [hval]
  exact hs.1

theorem run_extZero : Run extZero blk0 = (0, [byteOf 0]) := by
  have h1 : maxNonce = 9223372036854775806 + 1 := by norm_num [maxNonce]
  rw [Run, h1, RunAux]
  norm_num [extZero, hashToNat, powTarget, targetBits, byteOf]

theorem run_validate_roundtrip_witness :
    (Run extZero blk0).1 < maxNonce ∧
    Validate extZero
      { blk0 with Nonce := ((Run extZero blk0).1 : Int), Hash := (Run extZero blk0).2 } = true := by
  have hlt : (Run extZero blk0).1 < maxNonce := by rw [run_extZero]; norm_num [maxNonce]
  exact ⟨hlt, (run_validate_roundtrip extZero blk0 hlt).1⟩

theorem hashToNat_ff : hashToNat (List.replicate 32 (byteOf 255)) = 2 ^ 256 - 1 := by decide

theorem powSolves_extFF (b : Block) (m : Nat) : PowSolves extFF b m = false := by
  have : extFF.sha256 (PowPrepareData extFF b (m : Int)) = List.replicate 32 (byteOf 255) := rfl
  simp only [PowSolves, this, hashToNat_ff, decide_eq_false_iff_not, not_lt, powTarget,
    targetBits]
  norm_num

/-- C5 (amended): the nonce search starts at 0 and returns the first
(smallest) nonce whose digest, read as an unsigned big-endian integer,
is strictly below the target; if no nonce below `maxNonce` satisfies the
target, `Run` does not fail — it falls out of the loop and returns the
non-solution nonce `maxNonce` together with the digest computed at the
last tried nonce. -/
theorem run_first_solution (E : Ext) (b : Block) :
    ((Run E b).1 < maxNonce →
      PowSolves E b (Run E b).1 = true ∧ ∀ m, m < (Run E b).1 → PowSolves E b m = false) ∧
    ((∀ m, m < maxNonce → PowSolves E b m = false) →
      Run E b = (maxNonce, E.sha256 (PowPrepareData E b ((maxNonce - 1 : Nat) : Int)))) := by
  constructor
  · intro h
    refine ⟨(RunAux_success E b maxNonce 0 _ (by simpa using h)).1, ?_⟩
    exact RunAux_min E b maxNonce 0 _ (by intro m hm; omega)
  · intro h
    have he := RunAux_exhaust E b maxNonce 0 (List.replicate 32 (byteOf 0))
      (by norm_num [maxNonce]) (by simpa using h)
    simpa [Run] using he

theorem run_first_solution_witness :
    ((Run extZero blk0).1 < maxNonce ∧ PowSolves extZero blk0 (Run extZero blk0).1 = true) ∧
    ((∀ m, m < maxNonce → PowSolves extFF blk0 m = false) ∧
      Run extFF blk0 =
        (maxNonce, extFF.sha256 (PowPrepareData extFF blk0 ((maxNonce - 1 : Nat) : Int)))) := by
  have hlt : (Run extZero blk0).1 < maxNonce := by rw [run_extZero]; norm_num [maxNonce]
  exact ⟨⟨hlt, ((run_first_solution extZero blk0).1 hlt).1⟩,
    ⟨fun m _ => powSolves_extFF blk0 m,
      (run_first_solution extFF blk0).2 (fun m _ => powSolves_extFF blk0 m)⟩⟩

/-- C5 counterexample: with a digest function that never meets the
target, `Run` exhausts the nonce space and returns the pair
`(maxNonce, last digest)` — a nonce and hash that are not a solution —
instead of failing fatally: the mining loop of the source has no
failure path at all. -/
theorem run_exhaustion_returns_nonsolution :
    Run extFF blk0 = (maxNonce, List.replicate 32 (byteOf 255)) ∧
    ¬ hashToNat (Run extFF blk0).2 < powTarget := by
  have he := RunAux_exhaust extFF blk0 maxNonce 0 (List.replicate 32 (byteOf 0))
    (by norm_num [maxNonce]) (fun m _ => powSolves_extFF blk0 m)
  have hrun : Run extFF blk0 = (maxNonce, List.replicate 32 (byteOf 255)) := by
    simpa [Run] using he
  refine ⟨hrun, ?_⟩
  rw [hrun]
  simp only [hashToNat_ff, not_lt, powTarget, targetBits]
  norm_num

theorem storePut_same (s : Store) (k v : Bytes) : storePut s k v k = some v := by
  simp [storePut]

theorem storePut_other (s : Store) (k v k' : Bytes) (h : k' ≠ k) : storePut s k v k' = s k' := by
  simp [storePut, h]

/-- C6: `AddBlock` is idempotent.  The first call succeeds (given that
the panic-free decoding side condition of the source's read-back of the
previous tip record holds); when the block was absent it is written and
the tip unconditionally advanced to its hash, and when it was already
present the state is returned unchanged; a second call with the same
block is a no-op returning exactly the state the first call produced. -/
theorem addBlock_idempotent (E : Ext) (st : ChainState) (b : Block)
    (hkey : b.Hash ≠ lKey)
    (h : st.store b.Hash = none → addBlockDecodeOk E st b = true) :
    ∃ st', AddBlock E st b = .ok st' ∧ AddBlock E st' b = .ok st' ∧
      (st.store b.Hash = none →
        st'.tip = b.Hash ∧ st'.store b.Hash = some (E.blockSerialize b)) ∧
      (∀ d, st.store b.Hash = some d → st' = st) := by
  cases hb : st.store b.Hash with
  | some d =>
    refine ⟨st, by simp [AddBlock, hb], by simp [AddBlock, hb], ?_, fun _ _ => rfl⟩
    intro hn
    simp [hb] at hn
  | none =>
    obtain ⟨lb, hlb⟩ := Option.isSome_iff_exists.mp (by simpa [addBlockDecodeOk] using h hb)
    refine ⟨⟨storePut (storePut st.store b.Hash (E.blockSerialize b)) lKey b.Hash, b.Hash,
      st.mempool⟩, ?_, ?_, ?_, ?_⟩
    · simp only [AddBlock, hb]
      rw [hlb]
    · have hv : storePut (storePut st.store b.Hash (E.blockSerialize b)) lKey b.Hash
          b.Hash = some (E.blockSerialize b) := by
        simp [storePut, hkey]
      simp [AddBlock, hv]
    · intro _
      exact ⟨rfl, by simp [storePut, hkey]⟩
    · intro d hd
      simp at hd

theorem addBlock_idempotent_witness :
    blkNew.Hash ≠ lKey ∧
    (stPrev.store blkNew.Hash = none → addBlockDecodeOk extStore stPrev blkNew = true) ∧
    ∃ st', AddBlock extStore stPrev blkNew = .ok st' ∧ AddBlock extStore st' blkNew = .ok st' ∧
      (stPrev.store blkNew.Hash = none →
        st'.tip = blkNew.Hash ∧ st'.store blkNew.Hash = some (extStore.blockSerialize blkNew)) ∧
      (∀ d, stPrev.store blkNew.Hash = some d → st' = stPrev) :=
  ⟨by decide, fun _ => rfl,
    addBlock_idempotent extStore stPrev blkNew (by decide) (fun _ => rfl)⟩

theorem heightAux_chainRep (E : Ext) (store : Store) :
    ∀ (bs : List Block) (h : Bytes) (acc fuel : Nat),
      ChainRep E store h bs → bs.length ≤ fuel →
      heightAux E store h acc fuel = some (acc + bs.length) := by
  intro bs
  induction bs with
  | nil => intro h acc fuel hc _; cases hc
  | cons b rest ih =>
    intro h acc fuel hc hf
    obtain ⟨hs, hd, hrest⟩ := hc
    cases fuel with
    | zero => simp at hf
    | succ f =>
      have hnext : nextIter E store h = some (b, b.PrevBlockHash) := by
        simp [nextIter, hs, hd]
      cases rest with
      | nil => simp [heightAux, hnext, hrest]
      | cons b' rest' =>
        obtain ⟨hne, hcr⟩ := hrest
        simp only [heightAux, hnext]
        rw [if_neg hne, ih b.PrevBlockHash (acc + 1) f hcr (by simpa using hf)]
        simp
        omega

/-- C9: on a well-formed chain (the tip reaches, through previous-hash
links of decodable stored records, a genesis block with empty previous
hash), `GetBestHeight` returns the number of blocks on the tip-to-
genesis path, inclusive; a chain holding only the genesis block hence
has height 1. -/
theorem getBestHeight_counts (E : Ext) (st : ChainState) (bs : List Block) (fuel : Nat)
    (hc : ChainRep E st.store st.tip bs) (hf : bs.length ≤ fuel) :
    GetBestHeight E st fuel = some bs.length := by
  simpa [GetBestHeight] using heightAux_chainRep E st.store bs st.tip 0 fuel hc hf

theorem getBestHeight_counts_witness :
    ChainRep extStore stPrev.store stPrev.tip [blkPrev] ∧
    GetBestHeight extStore stPrev 1 = some 1 := by
  have hc : ChainRep extStore stPrev.store stPrev.tip [blkPrev] := ⟨rfl, rfl, rfl⟩
  exact ⟨hc, getBestHeight_counts extStore stPrev [blkPrev] 1 hc (by norm_num)⟩

theorem hexDigitChar_inj : ∀ a b : Fin 16, hexDigitChar a.val = hexDigitChar b.val → a = b := by
  decide

theorem hexByte_inj (a b : Fin 256)
    (h1 : hexDigitChar (a.val / 16) = hexDigitChar (b.val / 16))
    (h2 : hexDigitChar (a.val % 16) = hexDigitChar (b.val % 16)) : a = b := by
  have ha := a.isLt
  have hb := b.isLt
  have e1 := hexDigitChar_inj ⟨a.val / 16, by omega⟩ ⟨b.val / 16, by omega⟩ h1
  have e2 := hexDigitChar_inj ⟨a.val % 16, by omega⟩ ⟨b.val % 16, by omega⟩ h2
  have q1 : a.val / 16 = b.val / 16 := congrArg Fin.val e1
  have q2 : a.val % 16 = b.val % 16 := congrArg Fin.val e2
  exact Fin.ext (by omega)

theorem hexChunks_inj :
    ∀ as bs : Bytes,
      (as.map (fun b => [hexDigitChar (b.val / 16), hexDigitChar (b.val % 16)])).flatten =
        (bs.map (fun b => [hexDigitChar (b.val / 16), hexDigitChar (b.val % 16)])).flatten →
      as = bs := by
  intro as
  induction as with
  | nil =>
    intro bs h
    cases bs with
    | nil => rfl
    | cons b bs' => simp at h
  | cons a as' ih =>
    intro bs h
    cases bs with
    | nil => simp at h
    | cons b bs' =>
      simp only [List.map_cons, List.flatten_cons, List.cons_append, List.nil_append,
        List.cons.injEq] at h
      obtain ⟨h1, h2, h3⟩ := h
      rw [hexByte_inj a b h1 h2, ih bs' h3]

theorem hexEncode_inj {as bs : Bytes} (h : hexEncode as = hexEncode bs) : as = bs :=
  hexChunks_inj as bs (congrArg String.data h)

theorem marks_assocSetList (k' : String) :
    ∀ (m : AssocMap) (k : String) (l : List Int),
      marks (assocSetList m k l) k' = if k' = k then l else marks m k' := by
  intro m
  induction m with
  | nil =>
    intro k l
    by_cases h : k' = k
    · simp [assocSetList, marks, h]
    · simp [assocSetList, marks, h, Ne.symm h]
  | cons e rest ih =>
    intro k l
    obtain ⟨ek, el⟩ := e
    by_cases h : ek = k
    · subst h
      by_cases h2 : k' = ek
      · simp [assocSetList, marks, h2]
      · simp [assocSetList, marks, h2, Ne.symm h2]
    · by_cases h2 : ek = k'
      · have h3 : ¬ k' = k := fun he => h (h2.trans he)
        simp [assocSetList, marks, h, h2, h3]
      · simp [assocSetList, marks, h, h2, ih]

theorem marks_assocPush (m : AssocMap) (k k' : String) (v : Int) :
    marks (assocPush m k v) k' = if k' = k then marks m k ++ [v] else marks m k' := by
  simp [assocPush, marks_assocSetList]

theorem marks_foldlMark (E : Ext) (pubKeyHash : Bytes) :
    ∀ (l : List TXInput) (m : AssocMap) (k : String) (v : Int),
      v ∈ marks (l.foldl (fun m inp =>
          if UsesKey E inp pubKeyHash then assocPush m (hexEncode inp.Txid) inp.Vout else m) m) k →
      v ∈ marks m k ∨ ∃ inp ∈ l, hexEncode inp.Txid = k ∧ inp.Vout = v := by
  intro l
  induction l with
  | nil => intro m k v h; exact .inl h
  | cons inp rest ih =>
    intro m k v h
    rcases ih _ k v h with h' | ⟨inp', hmem, he⟩
    · by_cases hu : UsesKey E inp pubKeyHash = true
      · simp only [if_pos hu, marks_assocPush] at h'
        by_cases hk : k = hexEncode inp.Txid
        · rw [if_pos hk] at h'
          rcases List.mem_append.mp h' with h'' | h''
          · exact .inl (by rw [hk]; exact h'')
          · exact .inr ⟨inp, List.mem_cons_self _ _, hk.symm, (List.mem_singleton.mp h'').symm⟩
        · rw [if_neg hk] at h'
          exact .inl h'
      · simp only [if_neg hu] at h'
        exact .inl h'
    · exact .inr ⟨inp', List.mem_cons_of_mem _ hmem, he⟩

theorem marks_scanInputs_cases (E : Ext) (pubKeyHash : Bytes) (t : Transaction) (m : AssocMap)
    (k : String) (v : Int) (h : v ∈ marks (scanInputs E pubKeyHash m t) k) :
    v ∈ marks m k ∨ ∃ inp ∈ t.Vin, hexEncode inp.Txid = k ∧ inp.Vout = v := by
  unfold scanInputs at h
  by_cases hc : IsCoinbase t
  · rw [if_pos hc] at h
    exact .inl h
  · rw [if_neg hc] at h
    exact marks_foldlMark E pubKeyHash t.Vin m k v h

theorem scan_unspent_mono (E : Ext) (pubKeyHash : Bytes) :
    ∀ (txs : List Transaction) (st : ScanState) (tx : Transaction),
      tx ∈ st.unspentTXs → tx ∈ (txs.foldl (scanTx E pubKeyHash) st).unspentTXs := by
  intro txs
  induction txs with
  | nil => intro st tx h; exact h
  | cons t rest ih =>
    intro st tx h
    exact ih _ tx (List.mem_append_left _ h)

theorem scanOutputsAux_mem (spentIdx : List Int) (pubKeyHash : Bytes) (tx : Transaction) :
    ∀ (outs : List TXOutput) (start j : Nat) (out : TXOutput),
      outs[j]? = some out →
      ¬ (((start + j : Nat) : Int) ∈ spentIdx) →
      IsLockedWithKey out pubKeyHash = true →
      tx ∈ scanOutputsAux spentIdx pubKeyHash tx outs start := by
  intro outs
  induction outs with
  | nil => intro start j out h; simp at h
  | cons o rest ih =>
    intro start j out hj hns hl
    cases j with
    | zero =>
      have ho : o = out := by simpa using hj
      subst ho
      have hc : spentIdx.contains ((start : Nat) : Int) = false := by
        simpa [List.contains, List.elem_eq_mem] using hns
      simp only [scanOutputsAux, hc, Bool.false_eq_true, if_false, hl, if_true,
        List.cons_append, List.nil_append]
      exact List.mem_cons_self _ _
    | succ j' =>
      have hmem := ih (start + 1) j' out (by simpa using hj)
        (by
          have harith : start + 1 + j' = start + (j' + 1) := by omega
          rw [harith]
          exact hns) hl
      unfold scanOutputsAux
      exact List.mem_append_right _ hmem

theorem scan_complete (E : Ext) (pubKeyHash : Bytes) (tx : Transaction) (i : Nat)
    (out : TXOutput) (hget : tx.Vout[i]? = some out)
    (hlock : IsLockedWithKey out pubKeyHash = true) :
    ∀ (txs : List Transaction) (st : ScanState),
      tx ∈ txs →
      (∀ t ∈ txs, ∀ inp ∈ t.Vin, ¬(inp.Txid = tx.ID ∧ inp.Vout = (i : Int))) →
      ¬ ((i : Int) ∈ marks st.spentTXOs (hexEncode tx.ID)) →
      tx ∈ (txs.foldl (scanTx E pubKeyHash) st).unspentTXs := by
  intro txs
  induction txs with
  | nil => intro st h; cases h
  | cons t rest ih =>
    intro st hmem hunref hmarks
    rcases List.mem_cons.mp hmem with rfl | hmem'
    · have hin : tx ∈ (scanTx E pubKeyHash st tx).unspentTXs := by
        unfold scanTx
        refine List.mem_append_right _ ?_
        exact scanOutputsAux_mem (marks st.spentTXOs (hexEncode tx.ID)) pubKeyHash tx tx.Vout
          0 i out hget (by simpa using hmarks) hlock
      exact scan_unspent_mono E pubKeyHash rest _ tx hin
    · refine ih (scanTx E pubKeyHash st t) hmem'
        (fun t' ht' => hunref t' (List.mem_cons_of_mem _ ht')) ?_
      intro hin
      rcases marks_scanInputs_cases E pubKeyHash t st.spentTXOs (hexEncode tx.ID) (i : Int)
          hin with h' | ⟨inp, hi, hk, hv⟩
      · exact hmarks h'
      · exact hunref t (List.mem_cons_self _ _) inp hi ⟨hexEncode_inj hk, hv⟩

theorem foldl_blocks (E : Ext) (pubKeyHash : Bytes) :
    ∀ (chain : List Block) (st : ScanState),
      chain.foldl (fun st b => b.Transactions.foldl (scanTx E pubKeyHash) st) st =
        (chainTxs chain).foldl (scanTx E pubKeyHash) st := by
  intro chain
  induction chain with
  | nil => intro st; rfl
  | cons b rest ih =>
    intro st
    simp only [List.foldl_cons, chainTxs, List.map_cons, List.flatten_cons, List.foldl_append]
    exact ih _

theorem findUTXO_fold_mono (pubKeyHash : Bytes) (out : TXOutput) :
    ∀ (txs : List Transaction) (acc : List TXOutput), out ∈ acc →
      out ∈ txs.foldl
        (fun acc tx => acc ++ tx.Vout.filter (fun o => IsLockedWithKey o pubKeyHash)) acc := by
  intro txs
  induction txs with
  | nil => intro acc h; exact h
  | cons t rest ih => intro acc h; exact ih _ (List.mem_append_left _ h)

theorem findUTXO_fold_mem (pubKeyHash : Bytes) (out : TXOutput) (tx : Transaction) :
    ∀ (txs : List Transaction) (acc : List TXOutput),
      tx ∈ txs → out ∈ tx.Vout → IsLockedWithKey out pubKeyHash = true →
      out ∈ txs.foldl
        (fun acc tx => acc ++ tx.Vout.filter (fun o => IsLockedWithKey o pubKeyHash)) acc := by
  intro txs
  induction txs with
  | nil => intro acc h; cases h
  | cons t rest ih =>
    intro acc hmem ho hl
    rcases List.mem_cons.mp hmem with rfl | hmem'
    · exact findUTXO_fold_mono pubKeyHash out rest _
        (List.mem_append_right _ (List.mem_filter.mpr ⟨ho, hl⟩))
    · exact ih _ hmem' ho hl

/-- C1 (amended, completeness half): every output that is locked to the
fingerprint and whose `(txid, index)` pair is referenced by no input of
any transaction in the chain appears in the result of `FindUTXO`.  (The
soundness and multiplicity halves of the claim fail; see the
counterexample.) -/
theorem findUTXO_complete (E : Ext) (chain : List Block) (pubKeyHash : Bytes)
    (tx : Transaction) (i : Nat) (out : TXOutput)
    (htx : tx ∈ chainTxs chain)
    (hget : tx.Vout[i]? = some out)
    (hlock : IsLockedWithKey out pubKeyHash = true)
    (hunref : ∀ t ∈ chainTxs chain, ∀ inp ∈ t.Vin,
      ¬(inp.Txid = tx.ID ∧ inp.Vout = (i : Int))) :
    out ∈ FindUTXO E chain pubKeyHash := by
  have h1 : tx ∈ FindUnspentTransactions E chain pubKeyHash := by
    unfold FindUnspentTransactions
    rw [foldl_blocks]
    exact scan_complete E pubKeyHash tx i out hget hlock (chainTxs chain) ⟨[], []⟩ htx hunref
      (by simp [marks])
  unfold FindUTXO
  have ho : out ∈ tx.Vout := by
    have := hget
    exact List.getElem?_mem this
  exact findUTXO_fold_mem pubKeyHash out tx _ [] h1 ho hlock

theorem findUTXO_complete_witness :
    (txA ∈ chainTxs chainAX ∧ txA.Vout[1]? = some ⟨7, pk9⟩ ∧
      IsLockedWithKey ⟨7, pk9⟩ pk9 = true ∧
      (∀ t ∈ chainTxs chainAX, ∀ inp ∈ t.Vin,
        ¬(inp.Txid = txA.ID ∧ inp.Vout = ((1 : Nat) : Int)))) ∧
    (⟨7, pk9⟩ : TXOutput) ∈ FindUTXO extZero chainAX pk9 :=
  ⟨⟨by decide, by decide, by decide, by decide⟩,
    findUTXO_complete extZero chainAX pk9 txA 1 ⟨7, pk9⟩ (by decide) (by decide) (by decide)
      (by decide)⟩

/-- C1 counterexample: on the concrete chain `chainAX` the output
`(txA, 0)` (value 5, locked to `pk9`) is referenced by the input of
`txX`, i.e. it is spent — yet `FindUTXO` reports it (the scan appends
the whole transaction for its unspent output `(txA, 1)` and `FindUTXO`
then collects every locked output of that transaction without
re-checking spentness), refuting "no spent output is reported". -/
theorem findUTXO_reports_spent_output :
    (⟨5, pk9⟩ : TXOutput) ∈ FindUTXO extZero chainAX pk9 ∧
    txA.Vout[0]? = some ⟨5, pk9⟩ ∧
    (∃ t ∈ chainTxs chainAX, ∃ inp ∈ t.Vin, inp.Txid = txA.ID ∧ inp.Vout = (0 : Int)) := by
  refine ⟨by decide, by decide, ?_⟩
  exact ⟨txX, by decide, ⟨[byteOf 1], 0, [], pk9⟩, by decide, by decide, by decide⟩

theorem find_by_id :
    ∀ (l : List Transaction) (tx : Transaction),
      (l.map (fun t => t.ID)).Nodup → tx ∈ l →
      l.find? (fun t => hexEncode t.ID == hexEncode tx.ID) = some tx := by
  intro l
  induction l with
  | nil => intro tx _ h; cases h
  | cons t rest ih =>
    intro tx hnd hmem
    have hnd' := by simpa [List.nodup_cons] using hnd
    rcases List.mem_cons.mp hmem with rfl | hmem'
    · simp [List.find?]
    · have hne : (hexEncode t.ID == hexEncode tx.ID) = false := by
        apply beq_eq_false_iff_ne.mpr
        intro he
        have hid : t.ID = tx.ID := hexEncode_inj he
        exact hnd'.1 tx hmem' hid.symm
      simp only [List.find?, hne]
      exact ih tx hnd'.2 hmem'

theorem outputValueAt_eq (chain : List Block) (tx : Transaction) (j : Nat) (out : TXOutput)
    (hids : ((chainTxs chain).map (fun t => t.ID)).Nodup) (htx : tx ∈ chainTxs chain)
    (hout : tx.Vout[j]? = some out) :
    outputValueAt chain (hexEncode tx.ID) ((j : Nat) : Int) = out.Value := by
  simp only [outputValueAt, find_by_id (chainTxs chain) tx hids htx]
  rw [if_neg (not_lt.mpr (Int.natCast_nonneg j))]
  rw [show ((j : Nat) : Int).toNat = j from Int.toNat_natCast j, hout]

theorem listedSumMult_cons (chain : List Block) (e : String × List Int) (m : AssocMap) :
    listedSumMult chain (e :: m) =
      (e.2.map (fun i => outputValueAt chain e.1 i)).sum + listedSumMult chain m := by
  simp [listedSumMult]

theorem listedSumMult_assocPush (chain : List Block) :
    ∀ (m : AssocMap) (k : String) (v : Int),
      listedSumMult chain (assocPush m k v) =
        listedSumMult chain m + outputValueAt chain k v := by
  intro m
  induction m with
  | nil => intro k v; simp [assocPush, assocSetList, listedSumMult, marks]
  | cons e rest ih =>
    intro k v
    obtain ⟨ek, el⟩ := e
    by_cases h : ek = k
    · have hstep : assocPush ((ek, el) :: rest) k v = (k, el ++ [v]) :: rest := by
        simp [assocPush, assocSetList, marks, h]
      rw [hstep, listedSumMult_cons, listedSumMult_cons, h]
      simp only [List.map_append, List.sum_append, List.map_cons, List.map_nil, List.sum_cons,
        List.sum_nil]
      ring
    · have hstep : assocPush ((ek, el) :: rest) k v = (ek, el) :: assocPush rest k v := by
        simp [assocPush, assocSetList, marks, h]
      rw [hstep, listedSumMult_cons, ih k v, listedSumMult_cons]
      ring

theorem spendOutputsAux_sum (chain : List Block) (pubKeyHash : Bytes) (amount : Int)
    (tx : Transaction)
    (hids : ((chainTxs chain).map (fun t => t.ID)).Nodup) (htx : tx ∈ chainTxs chain) :
    ∀ (outs : List TXOutput) (start : Nat) (acc : Int) (m : AssocMap),
      (∀ (j : Nat) (o : TXOutput), outs[j]? = some o → tx.Vout[start + j]? = some o) →
      (spendOutputsAux pubKeyHash amount (hexEncode tx.ID) outs start acc m).1 -
          listedSumMult chain
            (spendOutputsAux pubKeyHash amount (hexEncode tx.ID) outs start acc m).2.1 =
        acc - listedSumMult chain m := by
  intro outs
  induction outs with
  | nil => intro start acc m _; simp [spendOutputsAux]
  | cons o rest ih =>
    intro start acc m hidx
    have h0 : tx.Vout[start]? = some o := by simpa using hidx 0 o (by simp)
    have hval := outputValueAt_eq chain tx start o hids htx h0
    have hrest : ∀ (j : Nat) (o' : TXOutput), rest[j]? = some o' →
        tx.Vout[start + 1 + j]? = some o' := by
      intro j o' hj
      have hh := hidx (j + 1) o' (by simpa using hj)
      rwa [show start + (j + 1) = start + 1 + j from by omega] at hh
    by_cases hsel : (IsLockedWithKey o pubKeyHash && decide (acc < amount)) = true
    · by_cases hbrk : amount ≤ acc + o.Value
      · simp only [spendOutputsAux, hsel, if_true, if_pos hbrk]
        rw [listedSumMult_assocPush, hval]
        ring
      · simp only [spendOutputsAux, hsel, if_true, if_neg hbrk]
        rw [ih (start + 1) _ _ hrest, listedSumMult_assocPush, hval]
        ring
    · simp only [spendOutputsAux, hsel, Bool.false_eq_true, if_false]
      exact ih (start + 1) acc m hrest

theorem spendWork_sum (chain : List Block) (pubKeyHash : Bytes) (amount : Int)
    (hids : ((chainTxs chain).map (fun t => t.ID)).Nodup) :
    ∀ (txs : List Transaction) (acc : Int) (m : AssocMap),
      (∀ t ∈ txs, t ∈ chainTxs chain) →
      (spendWork pubKeyHash amount txs acc m).1 -
          listedSumMult chain (spendWork pubKeyHash amount txs acc m).2 =
        acc - listedSumMult chain m := by
  intro txs
  induction txs with
  | nil => intro acc m _; simp [spendWork]
  | cons tx rest ih =>
    intro acc m hsub
    have hsum := spendOutputsAux_sum chain pubKeyHash amount tx hids
      (hsub tx (List.mem_cons_self _ _)) tx.Vout 0 acc m
      (fun j o hj => by simpa using hj)
    cases hspd : spendOutputsAux pubKeyHash amount (hexEncode tx.ID) tx.Vout 0 acc m with
    | mk acc' p =>
      cases p with
      | mk m' brk =>
        rw [hspd] at hsum
        simp only at hsum
        cases brk with
        | true =>
          simp only [spendWork, hspd]
          exact hsum
        | false =>
          simp only [spendWork, hspd]
          rw [ih acc' m' (fun t ht => hsub t (List.mem_cons_of_mem _ ht))]
          exact hsum

theorem scanOutputsAux_eq_tx (spentIdx : List Int) (pubKeyHash : Bytes) (tx : Transaction) :
    ∀ (outs : List TXOutput) (start : Nat) (t : Transaction),
      t ∈ scanOutputsAux spentIdx pubKeyHash tx outs start → t = tx := by
  intro outs
  induction outs with
  | nil => intro start t h; cases h
  | cons o rest ih =>
    intro start t h
    rcases List.mem_append.mp h with h' | h'
    · by_cases h1 : spentIdx.contains ((start : Nat) : Int) = true
      · rw [if_pos h1] at h'
        cases h'
      · rw [if_neg h1] at h'
        by_cases h2 : IsLockedWithKey o pubKeyHash = true
        · rw [if_pos h2] at h'
          exact (List.mem_singleton.mp h')
        · rw [if_neg h2] at h'
          cases h'
    · exact ih (start + 1) t h'

theorem scan_subset (E : Ext) (pubKeyHash : Bytes) :
    ∀ (txs : List Transaction) (st : ScanState) (t : Transaction),
      t ∈ (txs.foldl (scanTx E pubKeyHash) st).unspentTXs → t ∈ st.unspentTXs ∨ t ∈ txs := by
  intro txs
  induction txs with
  | nil => intro st t h; exact .inl h
  | cons t0 rest ih =>
    intro st t h
    rcases ih _ t h with h' | h'
    · rcases List.mem_append.mp h' with h'' | h''
      · exact .inl h''
      · exact .inr (List.mem_cons.mpr
          (.inl (scanOutputsAux_eq_tx _ pubKeyHash t0 t0.Vout 0 t h'')))
    · exact .inr (List.mem_cons_of_mem _ h')

theorem findUnspent_subset (E : Ext) (chain : List Block) (pubKeyHash : Bytes) (t : Transaction)
    (h : t ∈ FindUnspentTransactions E chain pubKeyHash) : t ∈ chainTxs chain := by
  unfold FindUnspentTransactions at h
  rw [foldl_blocks] at h
  rcases scan_subset E pubKeyHash (chainTxs chain) ⟨[], []⟩ t h with h' | h'
  · cases h'
  · exact h'

theorem lockedSumOuts_cons (pubKeyHash : Bytes) (o : TXOutput) (rest : List TXOutput) :
    lockedSumOuts pubKeyHash (o :: rest) =
      (if IsLockedWithKey o pubKeyHash = true then o.Value else 0) +
        lockedSumOuts pubKeyHash rest := by
  by_cases h : IsLockedWithKey o pubKeyHash = true <;>
    simp [lockedSumOuts, List.filter_cons, h]

theorem spendOutputsAux_mono (pubKeyHash : Bytes) (amount : Int) (k : String) :
    ∀ (outs : List TXOutput) (start : Nat) (acc : Int) (m : AssocMap),
      (∀ o ∈ outs, 0 ≤ o.Value) →
      acc ≤ (spendOutputsAux pubKeyHash amount k outs start acc m).1 := by
  intro outs
  induction outs with
  | nil => intro start acc m _; simp [spendOutputsAux]
  | cons o rest ih =>
    intro start acc m hnn
    have hv : 0 ≤ o.Value := hnn o (List.mem_cons_self _ _)
    have hnn' : ∀ o' ∈ rest, 0 ≤ o'.Value := fun o' ho' => hnn o' (List.mem_cons_of_mem _ ho')
    by_cases hsel : (IsLockedWithKey o pubKeyHash && decide (acc < amount)) = true
    · by_cases hbrk : amount ≤ acc + o.Value
      · simp only [spendOutputsAux, hsel, if_true, if_pos hbrk]
        omega
      · simp only [spendOutputsAux, hsel, if_true, if_neg hbrk]
        have := ih (start + 1) (acc + o.Value) (assocPush m k (start : Int)) hnn'
        omega
    · simp only [spendOutputsAux, hsel, Bool.false_eq_true, if_false]
      exact ih (start + 1) acc m hnn'

theorem spendWork_mono (pubKeyHash : Bytes) (amount : Int) :
    ∀ (txs : List Transaction) (acc : Int) (m : AssocMap),
      (∀ t ∈ txs, ∀ o ∈ t.Vout, 0 ≤ o.Value) →
      acc ≤ (spendWork pubKeyHash amount txs acc m).1 := by
  intro txs
  induction txs with
  | nil => intro acc m _; simp [spendWork]
  | cons tx rest ih =>
    intro acc m hnn
    have h1 := spendOutputsAux_mono pubKeyHash amount (hexEncode tx.ID) tx.Vout 0 acc m
      (hnn tx (List.mem_cons_self _ _))
    cases hspd : spendOutputsAux pubKeyHash amount (hexEncode tx.ID) tx.Vout 0 acc m with
    | mk acc' p =>
      cases p with
      | mk m' brk =>
        rw [hspd] at h1
        simp only at h1
        cases brk with
        | true => simp only [spendWork, hspd]; exact h1
        | false =>
          simp only [spendWork, hspd]
          have := ih acc' m' (fun t ht => hnn t (List.mem_cons_of_mem _ ht))
          omega

theorem spendOutputsAux_break (pubKeyHash : Bytes) (amount : Int) (k : String) :
    ∀ (outs : List TXOutput) (start : Nat) (acc : Int) (m : AssocMap),
      (spendOutputsAux pubKeyHash amount k outs start acc m).2.2 = true →
      amount ≤ (spendOutputsAux pubKeyHash amount k outs start acc m).1 := by
  intro outs
  induction outs with
  | nil => intro start acc m h; simp [spendOutputsAux] at h
  | cons o rest ih =>
    intro start acc m h
    by_cases hsel : (IsLockedWithKey o pubKeyHash && decide (acc < amount)) = true
    · by_cases hbrk : amount ≤ acc + o.Value
      · simp only [spendOutputsAux, hsel, if_true, if_pos hbrk]
        exact hbrk
      · simp only [spendOutputsAux, hsel, if_true, if_neg hbrk] at h ⊢
        exact ih (start + 1) _ _ h
    · simp only [spendOutputsAux, hsel, Bool.false_eq_true, if_false] at h ⊢
      exact ih (start + 1) acc m h

theorem spendOutputsAux_full (pubKeyHash : Bytes) (amount : Int) (k : String) :
    ∀ (outs : List TXOutput) (start : Nat) (acc : Int) (m : AssocMap),
      (∀ o ∈ outs, 0 ≤ o.Value) →
      (spendOutputsAux pubKeyHash amount k outs start acc m).2.2 = false →
      (spendOutputsAux pubKeyHash amount k outs start acc m).1 < amount →
      (spendOutputsAux pubKeyHash amount k outs start acc m).1 =
        acc + lockedSumOuts pubKeyHash outs := by
  intro outs
  induction outs with
  | nil => intro start acc m _ _ _; simp [spendOutputsAux, lockedSumOuts]
  | cons o rest ih =>
    intro start acc m hnn hnb hlt
    have hnn' : ∀ o' ∈ rest, 0 ≤ o'.Value := fun o' ho' => hnn o' (List.mem_cons_of_mem _ ho')
    rw [lockedSumOuts_cons]
    by_cases hlock : IsLockedWithKey o pubKeyHash = true
    · by_cases hacc : acc < amount
      · have hsel : (IsLockedWithKey o pubKeyHash && decide (acc < amount)) = true := by
          simp [hlock, hacc]
        by_cases hbrk : amount ≤ acc + o.Value
        · exfalso
          simp only [spendOutputsAux, hsel, if_true, if_pos hbrk] at hnb
          cases hnb
        · simp only [spendOutputsAux, hsel, if_true, if_neg hbrk] at hnb hlt ⊢
          rw [ih (start + 1) _ _ hnn' hnb hlt, if_pos hlock]
          ring
      · exfalso
        have hsel : (IsLockedWithKey o pubKeyHash && decide (acc < amount)) = false := by
          simp [hacc]
        simp only [spendOutputsAux, hsel, Bool.false_eq_true, if_false] at hlt
        have hmono := spendOutputsAux_mono pubKeyHash amount k rest (start + 1) acc m hnn'
        omega
    · have hsel : (IsLockedWithKey o pubKeyHash && decide (acc < amount)) = false := by
        simp [hlock]
      simp only [spendOutputsAux, hsel, Bool.false_eq_true, if_false] at hnb hlt ⊢
      rw [ih (start + 1) acc m hnn' hnb hlt, if_neg hlock]
      ring

theorem spendWork_full (pubKeyHash : Bytes) (amount : Int) :
    ∀ (txs : List Transaction) (acc : Int) (m : AssocMap),
      (∀ t ∈ txs, ∀ o ∈ t.Vout, 0 ≤ o.Value) →
      (spendWork pubKeyHash amount txs acc m).1 < amount →
      (spendWork pubKeyHash amount txs acc m).1 =
        acc + (txs.map (fun t => lockedSumOuts pubKeyHash t.Vout)).sum := by
  intro txs
  induction txs with
  | nil => intro acc m _ _; simp [spendWork]
  | cons tx rest ih =>
    intro acc m hnn hlt
    have hnng := hnn tx (List.mem_cons_self _ _)
    have hnn' : ∀ t ∈ rest, ∀ o ∈ t.Vout, 0 ≤ o.Value :=
      fun t ht => hnn t (List.mem_cons_of_mem _ ht)
    cases hspd : spendOutputsAux pubKeyHash amount (hexEncode tx.ID) tx.Vout 0 acc m with
    | mk acc' p =>
      cases p with
      | mk m' brk =>
        cases brk with
        | true =>
          exfalso
          have hb := spendOutputsAux_break pubKeyHash amount (hexEncode tx.ID) tx.Vout 0 acc m
            (by rw [hspd])
          rw [hspd] at hb
          simp only at hb
          simp only [spendWork, hspd] at hlt
          omega
        | false =>
          simp only [spendWork, hspd] at hlt ⊢
          have hacc' : acc' < amount := by
            have := spendWork_mono pubKeyHash amount rest acc' m' hnn'
            omega
          have hfull := spendOutputsAux_full pubKeyHash amount (hexEncode tx.ID) tx.Vout 0 acc m
            hnng (by rw [hspd]) (by rw [hspd]; exact hacc')
          rw [hspd] at hfull
          simp only at hfull
          rw [ih acc' m' hnn' hlt, hfull]
          simp only [List.map_cons, List.sum_cons]
          ring

theorem ulsAux_le (chain : List Block) (pubKeyHash id : Bytes) :
    ∀ (outs : List TXOutput) (idx : Nat), (∀ o ∈ outs, 0 ≤ o.Value) →
      ulsAux chain pubKeyHash id outs idx ≤ lockedSumOuts pubKeyHash outs := by
  intro outs
  induction outs with
  | nil => intro idx _; simp [ulsAux, lockedSumOuts]
  | cons o rest ih =>
    intro idx hnn
    rw [lockedSumOuts_cons]
    have h1 := ih (idx + 1) (fun o' ho' => hnn o' (List.mem_cons_of_mem _ ho'))
    have hv := hnn o (List.mem_cons_self _ _)
    by_cases hl : IsLockedWithKey o pubKeyHash = true
    · by_cases hu : IsUnreferenced chain id ((idx : Nat) : Int) = true
      · have hcond : (IsLockedWithKey o pubKeyHash &&
            IsUnreferenced chain id ((idx : Nat) : Int)) = true := by simp [hl, hu]
        simp only [ulsAux, hcond, if_true, if_pos hl]
        omega
      · have hcond : (IsLockedWithKey o pubKeyHash &&
            IsUnreferenced chain id ((idx : Nat) : Int)) = false := by
          simp only [Bool.and_eq_false_iff]
          right
          simpa using hu
        simp only [ulsAux, hcond, Bool.false_eq_true, if_false, if_pos hl]
        omega
    · have hcond : (IsLockedWithKey o pubKeyHash &&
          IsUnreferenced chain id ((idx : Nat) : Int)) = false := by
        simp only [Bool.and_eq_false_iff]
        left
        simpa using hl
      simp only [ulsAux, hcond, Bool.false_eq_true, if_false, if_neg hl]
      omega

theorem ulsAux_zero (chain : List Block) (pubKeyHash id : Bytes) :
    ∀ (outs : List TXOutput) (idx : Nat),
      (∀ (j : Nat) (o : TXOutput), outs[j]? = some o →
        ¬(IsLockedWithKey o pubKeyHash = true ∧
          IsUnreferenced chain id ((idx + j : Nat) : Int) = true)) →
      ulsAux chain pubKeyHash id outs idx = 0 := by
  intro outs
  induction outs with
  | nil => intro idx _; simp [ulsAux]
  | cons o rest ih =>
    intro idx hno
    have h0 : ¬(IsLockedWithKey o pubKeyHash = true ∧
        IsUnreferenced chain id ((idx : Nat) : Int) = true) := by
      have := hno 0 o (by simp)
      simpa using this
    have hcond : (IsLockedWithKey o pubKeyHash &&
        IsUnreferenced chain id ((idx : Nat) : Int)) = false := by
      simp only [Bool.and_eq_false_iff]
      rcases not_and_or.mp h0 with h | h
      · left
        simpa using h
      · right
        simpa using h
    have hrest : ulsAux chain pubKeyHash id rest (idx + 1) = 0 := by
      apply ih (idx + 1)
      intro j o' hj
      have hh := hno (j + 1) o' (by simpa using hj)
      rwa [show idx + (j + 1) = idx + 1 + j from by omega] at hh
    simp only [ulsAux, hcond, Bool.false_eq_true, if_false, hrest]
    simp

theorem isUnreferenced_spec (chain : List Block) (id : Bytes) (i : Int)
    (h : IsUnreferenced chain id i = true) :
    ∀ t ∈ chainTxs chain, ∀ inp ∈ t.Vin, ¬(inp.Txid = id ∧ inp.Vout = i) := by
  intro t ht inp hinp hcon
  simp only [IsUnreferenced, List.all_eq_true] at h
  have h2 := h t ht inp hinp
  simp [hcon.1, hcon.2] at h2

theorem mem_unspent_of_unref (E : Ext) (chain : List Block) (pubKeyHash : Bytes)
    (tx : Transaction) (j : Nat) (o : TXOutput)
    (htx : tx ∈ chainTxs chain) (hj : tx.Vout[j]? = some o)
    (hl : IsLockedWithKey o pubKeyHash = true)
    (hu : IsUnreferenced chain tx.ID ((j : Nat) : Int) = true) :
    tx ∈ FindUnspentTransactions E chain pubKeyHash := by
  unfold FindUnspentTransactions
  rw [foldl_blocks]
  exact scan_complete E pubKeyHash tx j o hj hl (chainTxs chain) ⟨[], []⟩ htx
    (isUnreferenced_spec chain tx.ID _ hu) (by simp [marks])

theorem sublist_sum_le : ∀ {l₁ l₂ : List Int}, l₁.Sublist l₂ → (∀ x ∈ l₂, 0 ≤ x) →
    l₁.sum ≤ l₂.sum := by
  intro l₁ l₂ h
  induction h with
  | slnil => intro _; simp
  | cons a h ih =>
    intro hx
    have h1 := ih (fun x hm => hx x (List.mem_cons_of_mem _ hm))
    have ha := hx a (List.mem_cons_self _ _)
    simp only [List.sum_cons]
    omega
  | cons₂ a h ih =>
    intro hx
    have h1 := ih (fun x hm => hx x (List.mem_cons_of_mem _ hm))
    simp only [List.sum_cons]
    omega

theorem sum_map_ite_mem (f : Transaction → Int) (u : List Transaction) :
    ∀ l : List Transaction,
      (l.map (fun t => if t ∈ u then f t else 0)).sum =
        ((l.filter (fun t => decide (t ∈ u))).map f).sum := by
  intro l
  induction l with
  | nil => simp
  | cons t rest ih =>
    by_cases h : t ∈ u
    · simp [List.filter_cons, h, ih]
    · simp [List.filter_cons, h, ih]

theorem filter_perm_dedup (u C : List Transaction) (hC : C.Nodup)
    (hsub : ∀ t ∈ u, t ∈ C) :
    (C.filter (fun t => decide (t ∈ u))).Perm u.dedup := by
  apply (List.perm_ext_iff_of_nodup (List.Nodup.filter _ hC) (List.nodup_dedup u)).mpr
  intro a
  simp only [List.mem_filter, decide_eq_true_eq, List.mem_dedup]
  constructor
  · exact fun hp => hp.2
  · exact fun ha => ⟨hsub a ha, ha⟩

theorem totalUnspent_le (E : Ext) (chain : List Block) (pubKeyHash : Bytes)
    (hids : ((chainTxs chain).map (fun t => t.ID)).Nodup)
    (hvals : ∀ t ∈ chainTxs chain, ∀ o ∈ t.Vout, 0 ≤ o.Value) :
    totalUnspent chain pubKeyHash ≤
      ((FindUnspentTransactions E chain pubKeyHash).map
        (fun t => lockedSumOuts pubKeyHash t.Vout)).sum := by
  have hCnodup : (chainTxs chain).Nodup := List.Nodup.of_map _ hids
  have husub : ∀ t ∈ FindUnspentTransactions E chain pubKeyHash, t ∈ chainTxs chain :=
    fun t ht => findUnspent_subset E chain pubKeyHash t ht
  have step1 : totalUnspent chain pubKeyHash ≤
      ((chainTxs chain).map (fun t =>
        if t ∈ FindUnspentTransactions E chain pubKeyHash then lockedSumOuts pubKeyHash t.Vout
        else 0)).sum := by
    unfold totalUnspent
    apply List.sum_le_sum
    intro t ht
    by_cases hmem : t ∈ FindUnspentTransactions E chain pubKeyHash
    · rw [if_pos hmem]
      exact ulsAux_le chain pubKeyHash t.ID t.Vout 0 (hvals t ht)
    · rw [if_neg hmem]
      have hz : ulsAux chain pubKeyHash t.ID t.Vout 0 = 0 := by
        apply ulsAux_zero
        intro j o hj hcon
        exact hmem (mem_unspent_of_unref E chain pubKeyHash t j o ht hj hcon.1
          (by simpa using hcon.2))
      omega
  have step2 := sum_map_ite_mem (fun t => lockedSumOuts pubKeyHash t.Vout)
    (FindUnspentTransactions E chain pubKeyHash) (chainTxs chain)
  have step3 : (((chainTxs chain).filter
        (fun t => decide (t ∈ FindUnspentTransactions E chain pubKeyHash))).map
      (fun t => lockedSumOuts pubKeyHash t.Vout)).sum =
      (((FindUnspentTransactions E chain pubKeyHash).dedup).map
        (fun t => lockedSumOuts pubKeyHash t.Vout)).sum :=
    List.Perm.sum_eq (List.Perm.map _
      (filter_perm_dedup (FindUnspentTransactions E chain pubKeyHash) (chainTxs chain)
        hCnodup husub))
  have step4 : (((FindUnspentTransactions E chain pubKeyHash).dedup).map
        (fun t => lockedSumOuts pubKeyHash t.Vout)).sum ≤
      ((FindUnspentTransactions E chain pubKeyHash).map
        (fun t => lockedSumOuts pubKeyHash t.Vout)).sum := by
    apply sublist_sum_le
      (List.Sublist.map _ (List.dedup_sublist (FindUnspentTransactions E chain pubKeyHash)))
    intro x hx
    obtain ⟨t, ht, rfl⟩ := List.mem_map.mp hx
    apply List.sum_nonneg
    intro y hy
    obtain ⟨o, ho, rfl⟩ := List.mem_map.mp hy
    exact hvals t (husub t ht) o (List.mem_of_mem_filter ho)
  calc totalUnspent chain pubKeyHash
      ≤ _ := step1
    _ = _ := step2
    _ = _ := step3
    _ ≤ _ := step4

/-- C7 (amended): the value `FindSpendableOutputs` returns equals the
sum of the values of the outputs listed in the returned map counted
with multiplicity (the same output can be listed — and its value
accumulated — more than once, because the unspent scan can return the
same transaction several times); and whenever the total unspent value
locked to the fingerprint is at least the requested amount, the
returned accumulated value is at least that amount.  Both are under the
well-formedness hypotheses that transaction ids in the chain are
distinct and output values are non-negative; the selection itself is
first-fit in scan order, stopping as soon as the accumulated value
reaches the requested amount (as the source's loop structure shows). -/
theorem findSpendableOutputs_spec (E : Ext) (chain : List Block) (pubKeyHash : Bytes)
    (amount : Int)
    (hids : ((chainTxs chain).map (fun t => t.ID)).Nodup)
    (hvals : ∀ t ∈ chainTxs chain, ∀ o ∈ t.Vout, 0 ≤ o.Value) :
    (FindSpendableOutputs E chain pubKeyHash amount).1 =
      listedSumMult chain (FindSpendableOutputs E chain pubKeyHash amount).2 ∧
    (amount ≤ totalUnspent chain pubKeyHash →
      amount ≤ (FindSpendableOutputs E chain pubKeyHash amount).1) := by
  have hsub : ∀ t ∈ FindUnspentTransactions E chain pubKeyHash, t ∈ chainTxs chain :=
    fun t ht => findUnspent_subset E chain pubKeyHash t ht
  constructor
  · have hs := spendWork_sum chain pubKeyHash amount hids
      (FindUnspentTransactions E chain pubKeyHash) 0 [] hsub
    have hz : listedSumMult chain ([] : AssocMap) = 0 := by simp [listedSumMult]
    rw [hz] at hs
    unfold FindSpendableOutputs
    omega
  · intro hta
    by_contra hlt
    push_neg at hlt
    unfold FindSpendableOutputs at hlt
    have hfull := spendWork_full pubKeyHash amount (FindUnspentTransactions E chain pubKeyHash)
      0 [] (fun t ht => hvals t (hsub t ht)) hlt
    have hle := totalUnspent_le E chain pubKeyHash hids hvals
    omega

theorem findSpendableOutputs_spec_witness :
    (((chainTxs chain7).map (fun t => t.ID)).Nodup ∧
      (∀ t ∈ chainTxs chain7, ∀ o ∈ t.Vout, 0 ≤ o.Value) ∧
      (7 : Int) ≤ totalUnspent chain7 pk9) ∧
    (FindSpendableOutputs extZero chain7 pk9 7).1 =
      listedSumMult chain7 (FindSpendableOutputs extZero chain7 pk9 7).2 ∧
    (7 : Int) ≤ (FindSpendableOutputs extZero chain7 pk9 7).1 := by
  have h := findSpendableOutputs_spec extZero chain7 pk9 7 (by decide) (by decide)
  exact ⟨⟨by decide, by decide, by decide⟩, h.1, h.2 (by decide)⟩

/-- C7 counterexample: on `chain7` — one transaction with two unspent
outputs of value 5 locked to `pk9`, which the unspent scan therefore
returns twice — requesting 15 makes the selection take output 0 twice:
the returned map lists indices `[0, 1, 0]` and the accumulated value 15
differs from the sum of the values of the distinct outputs listed
(5 + 5 = 10), refuting "the returned accumulated value equals the sum of
the values of the distinct outputs listed in the returned map". -/
theorem findSpendableOutputs_double_counts :
    FindSpendableOutputs extZero chain7 pk9 15 = (15, [(hexEncode tx7.ID, [0, 1, 0])]) ∧
    (FindSpendableOutputs extZero chain7 pk9 15).1 ≠
      claimDistinctListedSum chain7 (FindSpendableOutputs extZero chain7 pk9 15).2 :=
  ⟨by decide, by decide⟩

end SBC
